import Mathlib

/-!
Shallow embedding of `src/custom-logic.js` (PDF fuzzy-search viewer).

JS numbers are modelled as rationals (`ℚ`), JS strings as Lean `String`
(a list of characters), nullable values as `Option`.  Each definition
mirrors the JS function of the same name; line references are to
`src/custom-logic.js`.
-/

namespace PdfFuzzySearch

/-! ### Whitespace and text normalization (lines 236–244)

The corpus extractor normalizes each reconstructed line with
`line.text.replace(/\s+/g, ' ').trim()`: every maximal run of
whitespace is collapsed to one space, then leading and trailing
whitespace is removed. -/

/-- Whitespace class of the JS regex `\s` (restricted to the characters
relevant here: space, tab, line feed, carriage return, vertical tab,
form feed, no-break space). -/
def isWs (c : Char) : Bool :=
  c == ' ' || c == '\t' || c == '\n' || c == '\r' || c == '\x0b' ||
    c == '\x0c' || c == ' '

/-- `replace(/\s+/g, ' ')` on the character list: each maximal nonempty
run of whitespace becomes a single space. -/
def collapseWs : List Char → List Char
  | [] => []
  | [c] => if isWs c then [' '] else [c]
  | a :: b :: rest =>
    if isWs a then
      if isWs b then collapseWs (b :: rest)
      else ' ' :: collapseWs (b :: rest)
    else a :: collapseWs (b :: rest)

/-- `String.prototype.trim()` on the character list: drop whitespace
from both ends. -/
def trimWs (l : List Char) : List Char :=
  ((l.dropWhile isWs).reverse.dropWhile isWs).reverse

/-- `line.text.replace(/\s+/g, ' ').trim()` (line 238). -/
def normalizeText (s : String) : String :=
  ⟨trimWs (collapseWs s.data)⟩

/-! ### Glyph runs and reconstructed lines (lines 200–248) -/

/-- One item of `textContent.items`: a positioned glyph run.  Only the
fields the extractor reads are modelled: `str`, the transform entries
`tx[3]`, `tx[4]`, `tx[5]`, and the nullable `width` and `height`. -/
structure TextItem where
  str : String
  tx3 : ℚ
  tx4 : ℚ
  tx5 : ℚ
  width : Option ℚ
  height : Option ℚ
  deriving DecidableEq, Repr

/-- A reconstructed line record
`{ text, x, y, width, height, pageNum }` (line 220). -/
structure Line where
  text : String
  x : ℚ
  y : ℚ
  width : ℚ
  height : ℚ
  pageNum : ℕ
  deriving DecidableEq, Repr

/-- `item.width || 0` (line 215; `0` and absent are both falsy). -/
def itemW (item : TextItem) : ℚ := item.width.getD 0

/-- `(item.height != null) ? item.height : Math.max(Math.abs(tx[3]), 10)`
(line 217). -/
def itemH (item : TextItem) : ℚ := item.height.getD (max |item.tx3| 10)

/-- Opening a new line from a glyph run (lines 220 and 230). -/
def mkLine (pageNum : ℕ) (item : TextItem) : Line :=
  { text := item.str, x := item.tx4, y := item.tx5,
    width := itemW item, height := itemH item, pageNum := pageNum }

/-- Merging a glyph run into the open line (lines 222–227): extend the
width to the rightmost edge, concatenate the text with a single space,
keep the tallest glyph height. -/
def mergeItem (cur : Line) (item : TextItem) : Line :=
  { cur with
    width := max (cur.x + cur.width) (item.tx4 + itemW item) - cur.x,
    text := cur.text ++ " " ++ item.str,
    height := max cur.height (itemH item) }

/-- One iteration of the `for (const item of textContent.items)` loop
(lines 211–232).  State: the closed lines so far and the open line. -/
def foldStep (pageNum : ℕ) (st : List Line × Option Line) (item : TextItem) :
    List Line × Option Line :=
  match st.2 with
  | none => (st.1, some (mkLine pageNum item))
  | some cur =>
    if |cur.y - item.tx5| ≤ 3 then (st.1, some (mergeItem cur item))
    else (st.1 ++ [cur], some (mkLine pageNum item))

/-- The `lines` array produced for one page (lines 208–233), including
the final `if (currentLine) lines.push(currentLine)`. -/
def pageLines (pageNum : ℕ) (items : List TextItem) : List Line :=
  let st := items.foldl (foldStep pageNum) ([], none)
  st.1 ++ st.2.toList

/-- The clean-up loop (lines 236–245): normalize each line's text and
drop lines whose normalized text is empty. -/
def cleanLines (lines : List Line) : List Line :=
  lines.filterMap (fun line =>
    let t := normalizeText line.text
    if t.data = [] then none else some { line with text := t })

/-- The page loop of `extractTextCorpus` (lines 203–246), starting at
page number `p`: each page contributes its cleaned lines in order. -/
def extractCorpusFrom (p : ℕ) : List (List TextItem) → List Line
  | [] => []
  | items :: rest => cleanLines (pageLines p items) ++ extractCorpusFrom (p + 1) rest

/-- `extractTextCorpus(pdf)` (lines 200–248): a document is the list of
its pages' glyph-run streams; pages are numbered from 1. -/
def extractTextCorpus (pages : List (List TextItem)) : List Line :=
  extractCorpusFrom 1 pages

/-! ### Specification-side grouping

Modelled from the spec: lines are the maximal groups of consecutive
glyph runs whose vertical coordinate differs by at most 3 units from
the group's first run (the open line's `y`, which merging never
changes); a larger delta starts a new group. -/

/-- Split the remaining runs into groups, given the current group's
anchor `y` and its accumulated runs. -/
def groupSpecGo (anchorY : ℚ) (acc : List TextItem) :
    List TextItem → List (List TextItem)
  | [] => [acc]
  | it :: rest =>
    if |anchorY - it.tx5| ≤ 3 then groupSpecGo anchorY (acc ++ [it]) rest
    else acc :: groupSpecGo it.tx5 [it] rest

/-- Spec-side grouping of a page's glyph runs into line groups. -/
def groupSpec : List TextItem → List (List TextItem)
  | [] => []
  | it :: rest => groupSpecGo it.tx5 [it] rest

/-- The line built from one nonempty group: open on the first run, then
merge the rest in order. -/
def buildLine (p : ℕ) (first : TextItem) (rest : List TextItem) : Line :=
  rest.foldl mergeItem (mkLine p first)

/-- `buildLine` on a bare list (empty groups yield no line). -/
def buildLine? (p : ℕ) : List TextItem → Option Line
  | [] => none
  | it :: rest => some (buildLine p it rest)

/-- Proof-side restatement of the extraction loop once a line is open:
the list of lines emitted from open line `cur` and remaining items. -/
def linesFrom (p : ℕ) (cur : Line) : List TextItem → List Line
  | [] => [cur]
  | it :: rest =>
    if |cur.y - it.tx5| ≤ 3 then linesFrom p (mergeItem cur it) rest
    else cur :: linesFrom p (mkLine p it) rest

/-! ### Search results (lines 89–126) -/

/-- A Fuse-style result `{ item, score }` (lower score is better). -/
structure FMatch where
  item : Line
  score : ℚ
  deriving DecidableEq, Repr

/-- JS `hay.includes(sub)`: `sub` occurs contiguously in `hay`. -/
def includesStr (hay sub : String) : Bool :=
  hay.data.tails.any (fun t => sub.data.isPrefixOf t)

/-- JS `s.toLowerCase()`: lower-case every character. -/
def jsToLower (s : String) : String :=
  ⟨s.data.map Char.toLower⟩

/-- The substring fallback (lines 107–113): case-insensitive literal
substring search over all lines, every hit scored 0. -/
def substrFallback (corpus : List Line) (searchTerm : String) : List FMatch :=
  let q := jsToLower searchTerm
  (corpus.filter (fun line => includesStr (jsToLower line.text) q)).map
    (fun line => { item := line, score := 0 })

/-- The result list after the fallback step of `main` (lines 103–113):
the fuzzy results when nonempty, otherwise the substring fallback. -/
def searchResults (fuzzyResults : List FMatch) (corpus : List Line)
    (searchTerm : String) : List FMatch :=
  if fuzzyResults = [] then substrFallback corpus searchTerm else fuzzyResults

/-- `results.slice(0, 5)` (line 117). -/
def topMatches (results : List FMatch) : List FMatch := results.take 5

/-- `bestMatch = topMatches[0]` (line 118), the primary scroll and
highlight target. -/
def bestMatch (results : List FMatch) : Option FMatch :=
  (topMatches results).head?

/-! ### Startup configuration (lines 8–30 and 180–193) -/

/-- The fixed fetch-relay prefix `PROXY_URL` (line 12). -/
def PROXY_URL : String :=
  "https://fuzzy-proxy-r6vj0p99b-riteshs-projects-58a4d698.vercel.app/?url="

/-- `getPdfUrl()` (lines 8–30), with the `pdfurl` query parameter as
input (`none` when absent). -/
def getPdfUrl (pdfurl : Option String) : String :=
  match pdfurl with
  | some url => if url.length > 0 then PROXY_URL ++ url else "sample.pdf"
  | none => "sample.pdf"

/-- `q.replace(/\+/g, ' ')`. -/
def replacePlus (s : String) : String :=
  ⟨s.data.map (fun c => if c = '+' then ' ' else c)⟩

/-- `String.prototype.trim()` on a string. -/
def jsTrim (s : String) : String := ⟨trimWs s.data⟩

/-- JS `s.startsWith(pre)`. -/
def jsStartsWith (s pre : String) : Bool := pre.data.isPrefixOf s.data

/-- JS `s.substring(n)`: drop the first `n` characters. -/
def jsSubstring (s : String) (n : ℕ) : String := ⟨s.data.drop n⟩

/-- The hash branch of `getSearchTerm` (lines 188–192):
`decode` stands for the browser's `decodeURIComponent`. -/
def getSearchTermHash (decode : String → String) (hash : String) :
    Option String :=
  if jsStartsWith hash "#?text=" then
    some (jsTrim (decode (replacePlus (jsSubstring hash 7))))
  else none

/-- `getSearchTerm()` (lines 180–193), with the `text` query parameter
and the location hash as inputs. -/
def getSearchTerm (decode : String → String) (qtext : Option String)
    (hash : String) : Option String :=
  match qtext with
  | some q =>
    if q.length > 0 then some (jsTrim (decode (replacePlus q)))
    else getSearchTermHash decode hash
  | none => getSearchTermHash decode hash

/-! ### HTML escaping (lines 396–398) -/

/-- The replacement of one character under
`str.replace(/[&<>"]/g, ch => ({...}[ch]))`: `'&'` ↦ `&amp;`,
`'<'` ↦ `&lt;`, `'>'` ↦ `&gt;`, `'"'` ↦ `&quot;`. -/
def escChar (c : Char) : List Char :=
  if c = '&' then ['&', 'a', 'm', 'p', ';']
  else if c = '<' then ['&', 'l', 't', ';']
  else if c = '>' then ['&', 'g', 't', ';']
  else if c = '"' then ['&', 'q', 'u', 'o', 't', ';']
  else [c]

/-- `escapeHtml(str)` (lines 396–398). -/
def escapeHtml (s : String) : String :=
  ⟨s.data.flatMap escChar⟩

/-- Checker: every `'&'` in the list starts one of the four entities
`&amp;` `&lt;` `&gt;` `&quot;`. -/
def ampOk : List Char → Bool
  | [] => true
  | c :: rest =>
    (c != '&' || ['a', 'm', 'p', ';'].isPrefixOf rest ||
      ['l', 't', ';'].isPrefixOf rest || ['g', 't', ';'].isPrefixOf rest ||
      ['q', 'u', 'o', 't', ';'].isPrefixOf rest) && ampOk rest

/-! ### Page navigation clamp (line 332) -/

/-- `const clamp = (n) => Math.min(Math.max(n, 1), pdf.numPages)`. -/
def clamp (numPages n : ℤ) : ℤ := min (max n 1) numPages

/-- `getVal()` (line 333): the page-number input, parsed and clamped. -/
def getVal (numPages input : ℤ) : ℤ := clamp numPages input

/-- The prev button's scroll target (line 335): the handler computes
`n = getVal()` but calls `scrollToPage(n - 1)` with the *unclamped*
`n - 1` (only `setVal` re-clamps the input field). -/
def prevTarget (numPages input : ℤ) : ℤ := getVal numPages input - 1

/-- The next button's scroll target (line 336): `scrollToPage(n + 1)`
with the unclamped `n + 1`. -/
def nextTarget (numPages input : ℤ) : ℤ := getVal numPages input + 1

/-- The go button's scroll target (line 337): `scrollToPage(n)` with
`n = getVal()`, which is clamped. -/
def goTarget (numPages input : ℤ) : ℤ := getVal numPages input

/-! ### Concrete inputs used to evaluate the definitions -/

/-- A glyph run at vertical position `y` with unit width and height. -/
def runAt (s : String) (y : ℚ) : TextItem :=
  { str := s, tx3 := 1, tx4 := 0, tx5 := y, width := some 1, height := some 1 }

/-- A corpus line with given page number and text. -/
def lineAt (p : ℕ) (s : String) : Line :=
  { text := s, x := 0, y := 0, width := 1, height := 1, pageNum := p }

/-- Invariant established by `collapseWs`: no two adjacent whitespace
characters, and every whitespace character is a plain space. -/
def Collapsed (l : List Char) : Prop :=
  l.Chain' (fun a b => isWs a = false ∨ isWs b = false) ∧
    ∀ c ∈ l, isWs c = true → c = ' '

end PdfFuzzySearch

namespace PdfFuzzySearch

/-! ### Lemmas: whitespace normalization -/

theorem head_dropWhile_false {α : Type} {p : α → Bool} :
    ∀ (l : List α) (c : α), (l.dropWhile p).head? = some c → p c = false := by
  intro l
  induction l with
  | nil => intro c hc; simp [List.dropWhile] at hc
  | cons a rest ih =>
    intro c hc
    by_cases ha : p a
    · rw [List.dropWhile_cons, if_pos ha] at hc
      exact ih c hc
    · rw [List.dropWhile_cons, if_neg ha] at hc
      simp only [List.head?_cons, Option.some.injEq] at hc
      simpa [← hc] using ha

theorem collapseWs_head_of_not_ws {b : Char} (rest : List Char)
    (hb : isWs b = false) : ∃ t, collapseWs (b :: rest) = b :: t := by
  cases rest with
  | nil => exact ⟨[], by simp [collapseWs, hb]⟩
  | cons r rs => exact ⟨collapseWs (r :: rs), by simp [collapseWs, hb]⟩

theorem collapsed_collapseWs (l : List Char) : Collapsed (collapseWs l) := by
  induction l using collapseWs.induct with
  | case1 =>
    exact ⟨List.chain'_nil, by intro c hc; simp [collapseWs] at hc⟩
  | case2 c hc =>
    refine ⟨?_, ?_⟩
    · simp [collapseWs, hc]
    · intro d hd _
      simp [collapseWs, hc] at hd
      exact hd
  | case3 c hc =>
    have hcc : isWs c = false := by simpa using hc
    refine ⟨?_, ?_⟩
    · simp [collapseWs, hcc]
    · intro d hd hws
      simp [collapseWs, hcc] at hd
      subst hd
      simp [hcc] at hws
  | case4 a b rest ha hb ih =>
    simpa [collapseWs, ha, hb] using ih
  | case5 a b rest ha hb ih =>
    have hbb : isWs b = false := by simpa using hb
    rw [show collapseWs (a :: b :: rest) = ' ' :: collapseWs (b :: rest) by
      simp [collapseWs, ha, hbb]]
    obtain ⟨t, ht⟩ := collapseWs_head_of_not_ws rest hbb
    refine ⟨?_, ?_⟩
    · rw [List.chain'_cons']
      refine ⟨?_, ih.1⟩
      intro d hd
      rw [ht] at hd
      simp at hd
      subst hd
      exact Or.inr hbb
    · intro c hc hws
      rcases List.mem_cons.mp hc with h | h
      · exact h
      · exact ih.2 c h hws
  | case6 a b rest ha ih =>
    have haa : isWs a = false := by simpa using ha
    rw [show collapseWs (a :: b :: rest) = a :: collapseWs (b :: rest) by
      simp [collapseWs, haa]]
    refine ⟨?_, ?_⟩
    · rw [List.chain'_cons']
      exact ⟨fun d _ => Or.inl haa, ih.1⟩
    · intro c hc hws
      rcases List.mem_cons.mp hc with h | h
      · subst h; simp [haa] at hws
      · exact ih.2 c h hws

theorem collapseWs_eq_self : ∀ {l : List Char}, Collapsed l → collapseWs l = l := by
  intro l
  induction l using collapseWs.induct with
  | case1 => intro _; rfl
  | case2 c hc =>
    intro h
    have : c = ' ' := h.2 c (by simp) hc
    simp [collapseWs, hc, this]
  | case3 c hc =>
    intro _
    have hcc : isWs c = false := by simpa using hc
    simp [collapseWs, hcc]
  | case4 a b rest ha hb ih =>
    intro h
    exfalso
    have := List.chain'_cons.mp h.1
    rcases this.1 with h1 | h1
    · rw [ha] at h1; cases h1
    · rw [hb] at h1; cases h1
  | case5 a b rest ha hb ih =>
    intro h
    have hbb : isWs b = false := by simpa using hb
    have htail : Collapsed (b :: rest) :=
      ⟨(List.chain'_cons.mp h.1).2, fun c hc => h.2 c (List.mem_cons_of_mem a hc)⟩
    have haSp : a = ' ' := h.2 a (by simp) ha
    rw [show collapseWs (a :: b :: rest) = ' ' :: collapseWs (b :: rest) by
      simp [collapseWs, ha, hbb]]
    rw [ih htail, haSp]
  | case6 a b rest ha ih =>
    intro h
    have haa : isWs a = false := by simpa using ha
    have htail : Collapsed (b :: rest) :=
      ⟨(List.chain'_cons.mp h.1).2, fun c hc => h.2 c (List.mem_cons_of_mem a hc)⟩
    rw [show collapseWs (a :: b :: rest) = a :: collapseWs (b :: rest) by
      simp [collapseWs, haa]]
    rw [ih htail]

theorem trimWs_prefix_dropWhile (l : List Char) :
    trimWs l <+: l.dropWhile isWs := by
  have h1 : ((l.dropWhile isWs).reverse.dropWhile isWs) <:+ (l.dropWhile isWs).reverse :=
    List.dropWhile_suffix _
  have h2 := List.reverse_prefix.mpr h1
  rw [List.reverse_reverse] at h2
  exact h2

theorem trimWs_head_false {l : List Char} {c : Char}
    (hc : (trimWs l).head? = some c) : isWs c = false := by
  rcases h : trimWs l with _ | ⟨a, t⟩
  · rw [h] at hc; cases hc
  · rw [h] at hc
    simp only [List.head?_cons, Option.some.injEq] at hc
    subst hc
    obtain ⟨u, hu⟩ := trimWs_prefix_dropWhile l
    rw [h] at hu
    have hh : (l.dropWhile isWs).head? = some a := by rw [← hu]; rfl
    exact head_dropWhile_false l a hh

theorem trimWs_getLast_false {l : List Char} {c : Char}
    (hc : (trimWs l).getLast? = some c) : isWs c = false := by
  have h : (trimWs l).getLast? = ((l.dropWhile isWs).reverse.dropWhile isWs).head? := by
    unfold trimWs
    rw [List.getLast?_reverse]
  rw [h] at hc
  exact head_dropWhile_false _ c hc

theorem dropWhile_eq_self_of_head {α : Type} {p : α → Bool} {l : List α}
    (h : ∀ c, l.head? = some c → p c = false) : l.dropWhile p = l := by
  cases l with
  | nil => rfl
  | cons a rest =>
    rw [List.dropWhile_cons, if_neg (by simp [h a rfl])]

theorem trimWs_eq_self {l : List Char}
    (h1 : ∀ c, l.head? = some c → isWs c = false)
    (h2 : ∀ c, l.getLast? = some c → isWs c = false) :
    trimWs l = l := by
  unfold trimWs
  rw [dropWhile_eq_self_of_head h1]
  rw [dropWhile_eq_self_of_head
    (fun c hc => h2 c (by rwa [List.head?_reverse] at hc))]
  exact List.reverse_reverse l

theorem chain'_ws_reverse {l : List Char}
    (h : l.Chain' (fun a b => isWs a = false ∨ isWs b = false)) :
    l.reverse.Chain' (fun a b => isWs a = false ∨ isWs b = false) := by
  rw [List.chain'_reverse]
  exact List.Chain'.imp (fun a b hab => hab.symm) h

theorem collapsed_trimWs {l : List Char} (h : Collapsed l) :
    Collapsed (trimWs l) := by
  have hsub : trimWs l ⊆ l := fun c hc =>
    (List.dropWhile_suffix isWs).sublist.subset
      ((trimWs_prefix_dropWhile l).sublist.subset hc)
  constructor
  · have c1 := h.1.suffix (List.dropWhile_suffix isWs)
    have c2 := chain'_ws_reverse c1
    have c3 := c2.suffix (List.dropWhile_suffix isWs)
    exact chain'_ws_reverse c3
  · intro c hc hws
    exact h.2 c (hsub hc) hws

/-- Claim C4: line text normalization (collapsing every whitespace run
to one space, then trimming) is idempotent: applied to an
already-normalized string it returns that string unchanged. -/
theorem normalize_idempotent_c4 (s : String) :
    normalizeText (normalizeText s) = normalizeText s := by
  have hcol : Collapsed (trimWs (collapseWs s.data)) :=
    collapsed_trimWs (collapsed_collapseWs s.data)
  show (⟨trimWs (collapseWs (trimWs (collapseWs s.data)))⟩ : String)
      = ⟨trimWs (collapseWs s.data)⟩
  rw [collapseWs_eq_self hcol]
  rw [trimWs_eq_self (fun c hc => trimWs_head_false hc)
    (fun c hc => trimWs_getLast_false hc)]

/-! ### Lemmas: the line-grouping loop -/

theorem pageLines_def (p : ℕ) (items : List TextItem) :
    pageLines p items =
      (items.foldl (foldStep p) ([], none)).1 ++
        (items.foldl (foldStep p) ([], none)).2.toList := rfl

theorem foldl_foldStep_open (p : ℕ) :
    ∀ (its : List TextItem) (acc : List Line) (cur : Line),
      (its.foldl (foldStep p) (acc, some cur)).1 ++
          (its.foldl (foldStep p) (acc, some cur)).2.toList
        = acc ++ linesFrom p cur its := by
  intro its
  induction its with
  | nil =>
    intro acc cur
    simp [linesFrom]
  | cons it rest ih =>
    intro acc cur
    rw [List.foldl_cons]
    by_cases hy : |cur.y - it.tx5| ≤ 3
    · rw [show foldStep p (acc, some cur) it = (acc, some (mergeItem cur it)) by
        simp [foldStep, hy]]
      rw [ih acc (mergeItem cur it)]
      rw [show linesFrom p cur (it :: rest) = linesFrom p (mergeItem cur it) rest by
        simp [linesFrom, hy]]
    · rw [show foldStep p (acc, some cur) it = (acc ++ [cur], some (mkLine p it)) by
        simp [foldStep, hy]]
      rw [ih (acc ++ [cur]) (mkLine p it)]
      rw [show linesFrom p cur (it :: rest) = cur :: linesFrom p (mkLine p it) rest by
        simp [linesFrom, hy]]
      simp

theorem pageLines_cons (p : ℕ) (it : TextItem) (rest : List TextItem) :
    pageLines p (it :: rest) = linesFrom p (mkLine p it) rest := by
  rw [pageLines_def, List.foldl_cons]
  rw [show foldStep p ([], none) it = ([], some (mkLine p it)) from rfl]
  simpa using foldl_foldStep_open p rest [] (mkLine p it)

theorem foldl_mergeItem_y :
    ∀ (rest : List TextItem) (l : Line), (rest.foldl mergeItem l).y = l.y := by
  intro rest
  induction rest with
  | nil => intro l; rfl
  | cons it rs ih =>
    intro l
    rw [List.foldl_cons, ih]
    rfl

theorem linesFrom_eq_groups (p : ℕ) :
    ∀ (its : List TextItem) (first : TextItem) (pend : List TextItem),
      linesFrom p (buildLine p first pend) its =
        (groupSpecGo first.tx5 (first :: pend) its).filterMap (buildLine? p) := by
  intro its
  induction its with
  | nil =>
    intro first pend
    simp [linesFrom, groupSpecGo, buildLine?]
  | cons it rest ih =>
    intro first pend
    have hy : (buildLine p first pend).y = first.tx5 := by
      unfold buildLine
      rw [foldl_mergeItem_y]
      rfl
    by_cases hle : |first.tx5 - it.tx5| ≤ 3
    · rw [show linesFrom p (buildLine p first pend) (it :: rest)
          = linesFrom p (mergeItem (buildLine p first pend) it) rest by
        simp [linesFrom, hy, hle]]
      rw [show mergeItem (buildLine p first pend) it
          = buildLine p first (pend ++ [it]) by
        unfold buildLine
        rw [List.foldl_append]
        rfl]
      rw [ih first (pend ++ [it])]
      rw [show groupSpecGo first.tx5 (first :: pend) (it :: rest)
          = groupSpecGo first.tx5 ((first :: pend) ++ [it]) rest by
        simp [groupSpecGo, hle]]
      rfl
    · rw [show linesFrom p (buildLine p first pend) (it :: rest)
          = buildLine p first pend :: linesFrom p (mkLine p it) rest by
        simp [linesFrom, hy, hle]]
      rw [show mkLine p it = buildLine p it [] from rfl]
      rw [ih it []]
      rw [show groupSpecGo first.tx5 (first :: pend) (it :: rest)
          = (first :: pend) :: groupSpecGo it.tx5 [it] rest by
        simp [groupSpecGo, hle]]
      rfl

theorem foldStep_acc_extends (p : ℕ) :
    ∀ (items : List TextItem) (acc : List Line) (o : Option Line),
      acc <+: (items.foldl (foldStep p) (acc, o)).1 := by
  intro items
  induction items with
  | nil =>
    intro acc o
    exact ⟨[], List.append_nil acc⟩
  | cons it rest ih =>
    intro acc o
    rw [List.foldl_cons]
    match o with
    | none => exact ih acc (some (mkLine p it))
    | some cur =>
      by_cases hy : |cur.y - it.tx5| ≤ 3
      · rw [show foldStep p (acc, some cur) it = (acc, some (mergeItem cur it)) by
          simp [foldStep, hy]]
        exact ih acc _
      · rw [show foldStep p (acc, some cur) it
            = (acc ++ [cur], some (mkLine p it)) by
          simp [foldStep, hy]]
        have h1 : acc <+: acc ++ [cur] := ⟨[cur], rfl⟩
        exact h1.trans (ih (acc ++ [cur]) _)

/-- Claim C1 (amended): an incoming glyph run is merged into the open
line iff the absolute difference between its `y` and the open line's
`y` is at most 3 — the open line's `y` being the `y` of the line's
first run, which merging never changes, so splits happen exactly where
a run's vertical delta from the open line's first run (not from the
immediately preceding run) exceeds 3; merging extends the width to the
rightmost edge, concatenates the text with one separating space, and
takes the max height. -/
theorem extract_split_characterization_c1 (p : ℕ) (items : List TextItem) :
    pageLines p items = (groupSpec items).filterMap (buildLine? p) ∧
    (∀ (acc : List Line) (cur : Line) (it : TextItem),
      foldStep p (acc, some cur) it =
        if |it.tx5 - cur.y| ≤ 3 then (acc, some (mergeItem cur it))
        else (acc ++ [cur], some (mkLine p it))) ∧
    (∀ (cur : Line) (it : TextItem),
      (mergeItem cur it).text = cur.text ++ " " ++ it.str ∧
      (mergeItem cur it).width
          = max (cur.x + cur.width) (it.tx4 + itemW it) - cur.x ∧
      (mergeItem cur it).height = max cur.height (itemH it) ∧
      (mergeItem cur it).x = cur.x ∧ (mergeItem cur it).y = cur.y ∧
      (mergeItem cur it).pageNum = cur.pageNum) := by
  refine ⟨?_, ?_, ?_⟩
  · cases items with
    | nil => rfl
    | cons it rest =>
      rw [pageLines_cons]
      rw [show mkLine p it = buildLine p it [] from rfl]
      rw [linesFrom_eq_groups p rest it []]
      rfl
  · intro acc cur it
    rw [abs_sub_comm]
    rfl
  · intro cur it
    exact ⟨rfl, rfl, rfl, rfl, rfl, rfl⟩

/-- Claim C1 counterexample: three runs at vertical positions 0, −3,
−6 (monotonically non-increasing; no two consecutive runs differ by
more than 3 units) are still split into two lines, because the third
run is compared against the open line's `y` (the first run's 0), not
against the preceding run's −3.  So lines are not "split exactly where
consecutive vertical deltas exceed 3 units, never otherwise". -/
theorem extract_split_counterexample_c1 :
    |(runAt "a" 0).tx5 - (runAt "b" (-3)).tx5| ≤ 3 ∧
    |(runAt "b" (-3)).tx5 - (runAt "c" (-6)).tx5| ≤ 3 ∧
    (pageLines 1 [runAt "a" 0, runAt "b" (-3), runAt "c" (-6)]).map Line.text
      = ["a b", "c"] := by
  refine ⟨by norm_num [runAt], by norm_num [runAt], ?_⟩
  have hab : |(mkLine 1 (runAt "a" 0)).y - (runAt "b" (-3)).tx5| ≤ 3 := by
    norm_num [mkLine, runAt]
  have hac : ¬ |(mergeItem (mkLine 1 (runAt "a" 0)) (runAt "b" (-3))).y -
      (runAt "c" (-6)).tx5| ≤ 3 := by
    norm_num [mergeItem, mkLine, runAt]
  rw [pageLines_cons]
  rw [show linesFrom 1 (mkLine 1 (runAt "a" 0)) [runAt "b" (-3), runAt "c" (-6)]
      = linesFrom 1 (mergeItem (mkLine 1 (runAt "a" 0)) (runAt "b" (-3)))
          [runAt "c" (-6)] by
    simp [linesFrom, hab]]
  rw [show linesFrom 1 (mergeItem (mkLine 1 (runAt "a" 0)) (runAt "b" (-3)))
        [runAt "c" (-6)]
      = [mergeItem (mkLine 1 (runAt "a" 0)) (runAt "b" (-3)),
          mkLine 1 (runAt "c" (-6))] by
    simp [linesFrom, hac]]
  rfl

/-- Claim C5: folding a glyph run into an open line never decreases
the line's bounding-box width or height, and the extraction loop never
removes or alters an already-closed line (the closed lines stay as a
prefix of the final list). -/
theorem line_growth_c5 (cur : Line) (it : TextItem) (p : ℕ)
    (items : List TextItem) (acc : List Line) (o : Option Line) :
    cur.width ≤ (mergeItem cur it).width ∧
    cur.height ≤ (mergeItem cur it).height ∧
    acc <+: (items.foldl (foldStep p) (acc, o)).1 := by
  refine ⟨?_, le_max_left _ _, ?_⟩
  · show cur.width ≤ max (cur.x + cur.width) (it.tx4 + itemW it) - cur.x
    have h := le_max_left (cur.x + cur.width) (it.tx4 + itemW it)
    linarith
  · exact foldStep_acc_extends p items acc o

/-! ### Lemmas: corpus structure -/

theorem linesFrom_pageNum (p : ℕ) :
    ∀ (its : List TextItem) (cur : Line), cur.pageNum = p →
      ∀ l ∈ linesFrom p cur its, l.pageNum = p := by
  intro its
  induction its with
  | nil =>
    intro cur hcur l hl
    simp [linesFrom] at hl
    subst hl
    exact hcur
  | cons it rest ih =>
    intro cur hcur l hl
    by_cases hy : |cur.y - it.tx5| ≤ 3
    · rw [show linesFrom p cur (it :: rest)
          = linesFrom p (mergeItem cur it) rest by simp [linesFrom, hy]] at hl
      exact ih (mergeItem cur it) hcur l hl
    · rw [show linesFrom p cur (it :: rest)
          = cur :: linesFrom p (mkLine p it) rest by simp [linesFrom, hy]] at hl
      rcases List.mem_cons.mp hl with h | h
      · subst h; exact hcur
      · exact ih (mkLine p it) rfl l h

theorem pageLines_pageNum (p : ℕ) (items : List TextItem) :
    ∀ l ∈ pageLines p items, l.pageNum = p := by
  cases items with
  | nil =>
    intro l hl
    simp [pageLines_def] at hl
  | cons it rest =>
    rw [pageLines_cons]
    exact linesFrom_pageNum p rest (mkLine p it) rfl

theorem cleanLines_mem {lines : List Line} {l : Line}
    (hl : l ∈ cleanLines lines) :
    ∃ l₀ ∈ lines, l.pageNum = l₀.pageNum ∧
      l.text = normalizeText l₀.text ∧ l.text.data ≠ [] := by
  unfold cleanLines at hl
  rw [List.mem_filterMap] at hl
  obtain ⟨l₀, hl₀, hmap⟩ := hl
  by_cases ht : (normalizeText l₀.text).data = []
  · simp [ht] at hmap
  · simp only [ht, if_false] at hmap
    rw [Option.some.injEq] at hmap
    refine ⟨l₀, hl₀, ?_, ?_, ?_⟩
    · rw [← hmap]
    · rw [← hmap]
    · rw [← hmap]
      exact ht

theorem extractCorpusFrom_mem :
    ∀ (pages : List (List TextItem)) (p : ℕ) (l : Line),
      l ∈ extractCorpusFrom p pages →
      (p ≤ l.pageNum ∧ l.pageNum < p + pages.length) ∧
      l.text.data ≠ [] ∧ ∃ s : String, l.text = normalizeText s := by
  intro pages
  induction pages with
  | nil =>
    intro p l hl
    simp [extractCorpusFrom] at hl
  | cons items rest ih =>
    intro p l hl
    rw [show extractCorpusFrom p (items :: rest)
        = cleanLines (pageLines p items) ++ extractCorpusFrom (p + 1) rest
      from rfl] at hl
    rcases List.mem_append.mp hl with h | h
    · obtain ⟨l₀, hl₀, hpn, htext, hne⟩ := cleanLines_mem h
      have hp : l₀.pageNum = p := pageLines_pageNum p items l₀ hl₀
      refine ⟨⟨?_, ?_⟩, hne, ⟨l₀.text, htext⟩⟩
      · rw [hpn, hp]
      · rw [hpn, hp]
        simp
    · obtain ⟨⟨h1, h2⟩, h3, h4⟩ := ih (p + 1) l h
      refine ⟨⟨by omega, ?_⟩, h3, h4⟩
      simp only [List.length_cons]
      omega

theorem pairwise_le_of_all_eq {l : List ℕ} {p : ℕ} (h : ∀ x ∈ l, x = p) :
    l.Pairwise (· ≤ ·) := by
  induction l with
  | nil => exact List.Pairwise.nil
  | cons a t ih =>
    refine List.Pairwise.cons ?_ (ih fun x hx => h x (List.mem_cons_of_mem a hx))
    intro b hb
    rw [h a (List.mem_cons_self a t), h b (List.mem_cons_of_mem a hb)]

theorem extractCorpusFrom_sorted :
    ∀ (pages : List (List TextItem)) (p : ℕ),
      ((extractCorpusFrom p pages).map Line.pageNum).Pairwise (· ≤ ·) := by
  intro pages
  induction pages with
  | nil =>
    intro p
    simp [extractCorpusFrom]
  | cons items rest ih =>
    intro p
    rw [show extractCorpusFrom p (items :: rest)
        = cleanLines (pageLines p items) ++ extractCorpusFrom (p + 1) rest
      from rfl]
    rw [List.map_append, List.pairwise_append]
    refine ⟨?_, ih (p + 1), ?_⟩
    · apply pairwise_le_of_all_eq (p := p)
      intro x hx
      rw [List.mem_map] at hx
      obtain ⟨l, hl, hxl⟩ := hx
      obtain ⟨l₀, hl₀, hpn, _, _⟩ := cleanLines_mem hl
      rw [← hxl, hpn]
      exact pageLines_pageNum p items l₀ hl₀
    · intro a ha b hb
      rw [List.mem_map] at ha hb
      obtain ⟨la, hla, hxa⟩ := ha
      obtain ⟨lb, hlb, hxb⟩ := hb
      obtain ⟨l₀, hl₀, hpn, _, _⟩ := cleanLines_mem hla
      have hpa : la.pageNum = p := by
        rw [hpn]
        exact pageLines_pageNum p items l₀ hl₀
      have hpb := (extractCorpusFrom_mem rest (p + 1) lb hlb).1.1
      rw [← hxa, ← hxb, hpa]
      omega

/-- Claim C6: the extracted corpus is ordered by non-decreasing page
number, every page number lies in `[1, N]`, and every corpus line has
non-empty text with no leading or trailing whitespace and no two
consecutive whitespace characters. -/
theorem corpus_invariants_c6 (pages : List (List TextItem)) :
    ((extractTextCorpus pages).map Line.pageNum).Pairwise (· ≤ ·) ∧
    ∀ l ∈ extractTextCorpus pages,
      1 ≤ l.pageNum ∧ l.pageNum ≤ pages.length ∧
      l.text.data ≠ [] ∧
      (∀ c, l.text.data.head? = some c → isWs c = false) ∧
      (∀ c, l.text.data.getLast? = some c → isWs c = false) ∧
      l.text.data.Chain' (fun a b => isWs a = false ∨ isWs b = false) := by
  refine ⟨extractCorpusFrom_sorted pages 1, ?_⟩
  intro l hl
  obtain ⟨⟨h1, h2⟩, hne, s, hs⟩ := extractCorpusFrom_mem pages 1 l hl
  have hdat : l.text.data = trimWs (collapseWs s.data) := by rw [hs]; rfl
  have hcol : Collapsed (trimWs (collapseWs s.data)) :=
    collapsed_trimWs (collapsed_collapseWs s.data)
  refine ⟨h1, by omega, hne, ?_, ?_, ?_⟩
  · intro c hc
    rw [hdat] at hc
    exact trimWs_head_false hc
  · intro c hc
    rw [hdat] at hc
    exact trimWs_getLast_false hc
  · rw [hdat]
    exact hcol.1

/-! ### Lemmas: search results -/

theorem includesStr_iff (hay sub : String) :
    includesStr hay sub = true ↔
      ∃ pre post, hay.data = pre ++ sub.data ++ post := by
  unfold includesStr
  rw [List.any_eq_true]
  constructor
  · rintro ⟨t, ht, hpre⟩
    rw [List.mem_tails] at ht
    rw [ List.isPrefixOf_iff_prefix] at hpre
    obtain ⟨post, hpost⟩ := hpre
    obtain ⟨pre, hpre2⟩ := ht
    exact ⟨pre, post, by rw [← hpre2, ← hpost, List.append_assoc]⟩
  · rintro ⟨pre, post, hdecomp⟩
    refine ⟨sub.data ++ post, ?_, ?_⟩
    · rw [List.mem_tails]
      exact ⟨pre, by rw [hdecomp, List.append_assoc]⟩
    · rw [ List.isPrefixOf_iff_prefix]
      exact ⟨post, rfl⟩

/-- Claim C2: when the approximate matcher returns zero results, the
substring fallback surfaces exactly the lines whose text contains the
query verbatim case-insensitively, each scored exactly 0. -/
theorem fallback_c2 (fuzzy : List FMatch) (corpus : List Line) (term : String)
    (hterm : term ≠ "") (hfz : fuzzy = []) :
    (∀ line ∈ corpus,
      (∃ pre post,
        (jsToLower line.text).data = pre ++ (jsToLower term).data ++ post) →
      ({ item := line, score := 0 } : FMatch) ∈ searchResults fuzzy corpus term) ∧
    (∀ m ∈ searchResults fuzzy corpus term,
      m.score = 0 ∧ m.item ∈ corpus ∧
      ∃ pre post,
        (jsToLower m.item.text).data = pre ++ (jsToLower term).data ++ post) := by
  subst hfz
  rw [show searchResults [] corpus term = substrFallback corpus term by
    simp [searchResults]]
  constructor
  · intro line hline hocc
    unfold substrFallback
    rw [List.mem_map]
    refine ⟨line, ?_, rfl⟩
    rw [List.mem_filter]
    exact ⟨hline, (includesStr_iff _ _).mpr hocc⟩
  · intro m hm
    unfold substrFallback at hm
    rw [List.mem_map] at hm
    obtain ⟨line, hline, hmk⟩ := hm
    rw [List.mem_filter] at hline
    rw [← hmk]
    exact ⟨rfl, hline.1, (includesStr_iff _ _).mp hline.2⟩

/-- Witness for C2 on a concrete corpus: with no fuzzy results, the
query "world" surfaces the line "Hello World" with score 0. -/
theorem fallback_c2_witness :
    ({ item := lineAt 1 "Hello World", score := 0 } : FMatch) ∈
      searchResults [] [lineAt 1 "Hello World"] "world" := by
  have h := (fallback_c2 [] [lineAt 1 "Hello World"] "world"
    (by decide) rfl).1
  apply h (lineAt 1 "Hello World") (by simp)
  exact ⟨"hello ".data, [], by decide⟩

/-- Claim C3: results are truncated to the first 5 (all of them when
fewer), the surfaced list is an order-preserving prefix that stays
sorted by ascending score, and the primary scroll target is the first
result (which has the lowest score). -/
theorem truncation_c3 (results : List FMatch)
    (hs : (results.map FMatch.score).Pairwise (· ≤ ·)) :
    (5 ≤ results.length → (topMatches results).length = 5) ∧
    (results.length < 5 → topMatches results = results) ∧
    ((topMatches results).map FMatch.score).Pairwise (· ≤ ·) ∧
    topMatches results <+: results ∧
    bestMatch results = results.head? ∧
    (∀ b, bestMatch results = some b → ∀ m ∈ results, b.score ≤ m.score) := by
  refine ⟨?_, ?_, ?_, ?_, ?_, ?_⟩
  · intro h
    rw [topMatches, List.length_take]
    omega
  · intro h
    rw [topMatches]
    exact List.take_of_length_le (by omega)
  · exact hs.sublist ((List.take_sublist 5 results).map FMatch.score)
  · exact ⟨results.drop 5, List.take_append_drop 5 results⟩
  · cases results with
    | nil => rfl
    | cons a t => rfl
  · intro b hb m hm
    cases results with
    | nil => simp [bestMatch, topMatches] at hb
    | cons a t =>
      have hba : b = a := by
        simp [bestMatch, topMatches] at hb
        exact hb.symm
      subst hba
      rcases List.mem_cons.mp hm with h | h
      · subst h
        exact le_refl _
      · rw [List.map_cons] at hs
        exact (List.pairwise_cons.mp hs).1 m.score
          (List.mem_map_of_mem FMatch.score h)

/-- Witness for C3 on a concrete sorted list of six results. -/
theorem truncation_c3_witness :
    5 ≤ ([⟨lineAt 1 "a", 0⟩, ⟨lineAt 1 "b", 0⟩, ⟨lineAt 2 "c", 1⟩,
          ⟨lineAt 2 "d", 1⟩, ⟨lineAt 3 "e", 2⟩, ⟨lineAt 3 "f", 3⟩] :
        List FMatch).length ∧
    (topMatches [⟨lineAt 1 "a", 0⟩, ⟨lineAt 1 "b", 0⟩, ⟨lineAt 2 "c", 1⟩,
          ⟨lineAt 2 "d", 1⟩, ⟨lineAt 3 "e", 2⟩, ⟨lineAt 3 "f", 3⟩]).length = 5 ∧
    bestMatch [⟨lineAt 1 "a", 0⟩, ⟨lineAt 1 "b", 0⟩, ⟨lineAt 2 "c", 1⟩,
          ⟨lineAt 2 "d", 1⟩, ⟨lineAt 3 "e", 2⟩, ⟨lineAt 3 "f", 3⟩]
      = some ⟨lineAt 1 "a", 0⟩ := by
  have h := truncation_c3 [⟨lineAt 1 "a", 0⟩, ⟨lineAt 1 "b", 0⟩,
    ⟨lineAt 2 "c", 1⟩, ⟨lineAt 2 "d", 1⟩, ⟨lineAt 3 "e", 2⟩,
    ⟨lineAt 3 "f", 3⟩] (by decide)
  refine ⟨by decide, h.1 (by decide), ?_⟩
  rw [h.2.2.2.2.1]
  rfl

/-! ### Startup configuration, escaping, clamping -/

theorem length_pos_of_ne_empty {s : String} (h : s ≠ "") : s.length > 0 := by
  obtain ⟨data⟩ := s
  cases data with
  | nil => exact absurd rfl h
  | cons c cs => simp [String.length]

/-- Claim C7: the resolved document location is the fixed fetch-relay
prefix concatenated with the raw `pdfurl` value when that parameter is
present and non-empty, and the local default `sample.pdf` when it is
absent or empty. -/
theorem pdf_url_c7 (pdfurl : Option String) :
    (∀ u, pdfurl = some u → u ≠ "" → getPdfUrl pdfurl = PROXY_URL ++ u) ∧
    (pdfurl = none ∨ pdfurl = some "" → getPdfUrl pdfurl = "sample.pdf") := by
  constructor
  · intro u hu hne
    subst hu
    rw [show getPdfUrl (some u)
        = if u.length > 0 then PROXY_URL ++ u else "sample.pdf" from rfl]
    rw [if_pos (length_pos_of_ne_empty hne)]
  · rintro (h | h) <;> subst h <;> rfl

/-- Witness for C7 at concrete inputs. -/
theorem pdf_url_c7_witness :
    getPdfUrl (some "x") = PROXY_URL ++ "x" ∧
    getPdfUrl none = "sample.pdf" ∧
    getPdfUrl (some "") = "sample.pdf" :=
  ⟨(pdf_url_c7 (some "x")).1 "x" rfl (by decide),
   (pdf_url_c7 none).2 (Or.inl rfl),
   (pdf_url_c7 (some "")).2 (Or.inr rfl)⟩

/-- Claim C8 counterexample: a location whose query string contains the
search-phrase parameter with an empty value yields `null`, although the
claim's transform of that empty value is the empty string, not `null`
(the code treats an empty query-string value as absent and falls
through to the hash). -/
theorem search_term_counterexample_c8 :
    getSearchTerm id (some "") "" = none ∧
    jsTrim (id (replacePlus "")) = "" := by
  exact ⟨rfl, rfl⟩

/-- Claim C8 (amended): with a non-empty search-phrase query parameter
the extracted term is the value with every '+' replaced by a space,
then URL-decoded, then trimmed; with the parameter absent *or empty*,
the hash is consulted instead: a hash starting with `#?text=` yields
the same transform of its remainder, and otherwise the result is null. -/
theorem search_term_c8 (decode : String → String) (qtext : Option String)
    (hash : String) :
    (∀ q, qtext = some q → q ≠ "" →
      getSearchTerm decode qtext hash
        = some (jsTrim (decode (replacePlus q)))) ∧
    (qtext = none ∨ qtext = some "" →
      getSearchTerm decode qtext hash =
        if jsStartsWith hash "#?text=" then
          some (jsTrim (decode (replacePlus (jsSubstring hash 7))))
        else none) := by
  constructor
  · intro q hq hne
    subst hq
    rw [show getSearchTerm decode (some q) hash
        = if q.length > 0 then some (jsTrim (decode (replacePlus q)))
          else getSearchTermHash decode hash from rfl]
    rw [if_pos (length_pos_of_ne_empty hne)]
  · rintro (h | h) <;> subst h <;> rfl

/-- Witness for C8 at concrete inputs (with the identity as decoder). -/
theorem search_term_c8_witness :
    getSearchTerm id (some "a+b") "" = some "a b" ∧
    getSearchTerm id none "#?text= hi " = some "hi" := by
  constructor
  · rw [(search_term_c8 id (some "a+b") "").1 "a+b" rfl (by decide)]
    rfl
  · rw [(search_term_c8 id none "#?text= hi ").2 (Or.inl rfl)]
    rfl

theorem escChar_no_specials (a : Char) :
    ∀ c ∈ escChar a, c ≠ '<' ∧ c ≠ '>' ∧ c ≠ '"' := by
  intro c hc
  unfold escChar at hc
  split_ifs at hc with h1 h2 h3 h4
  · fin_cases hc <;> refine ⟨by decide, by decide, by decide⟩
  · fin_cases hc <;> refine ⟨by decide, by decide, by decide⟩
  · fin_cases hc <;> refine ⟨by decide, by decide, by decide⟩
  · fin_cases hc <;> refine ⟨by decide, by decide, by decide⟩
  · rw [List.mem_singleton] at hc
    subst hc
    exact ⟨h2, h3, h4⟩

theorem ampOk_escChar (a : Char) (r : List Char) :
    ampOk (escChar a ++ r) = ampOk r := by
  unfold escChar
  split_ifs with h1 h2 h3 h4
  · simp [ampOk, List.isPrefixOf]
  · simp [ampOk, List.isPrefixOf]
  · simp [ampOk, List.isPrefixOf]
  · simp [ampOk, List.isPrefixOf]
  · have ha : (a != '&') = true := by simpa using h1
    simp [ampOk, ha]

/-- Claim C9: the output of `escapeHtml` contains no '<', '>' or '"',
and every '&' it contains starts one of the entities `&amp;`, `&lt;`,
`&gt;`, `&quot;` introduced by the replacement. -/
theorem escape_html_c9 (s : String) :
    (∀ c ∈ (escapeHtml s).data, c ≠ '<' ∧ c ≠ '>' ∧ c ≠ '"') ∧
    ampOk (escapeHtml s).data = true := by
  show (∀ c ∈ s.data.flatMap escChar, c ≠ '<' ∧ c ≠ '>' ∧ c ≠ '"') ∧
    ampOk (s.data.flatMap escChar) = true
  induction s.data with
  | nil => exact ⟨by intro c hc; simp at hc, rfl⟩
  | cons a t ih =>
    constructor
    · intro c hc
      rw [List.flatMap_cons, List.mem_append] at hc
      rcases hc with h | h
      · exact escChar_no_specials a c h
      · exact ih.1 c h
    · rw [List.flatMap_cons, ampOk_escChar]
      exact ih.2

/-- Claim C10 counterexample: on a one-page document with the input at
page 1, the prev handler's scroll target is page 0 and the next
handler's is page 2 — both outside the document — because the handlers
pass the unclamped `n - 1` / `n + 1` to `scrollToPage`.  So it is not
true that no prev/next/go action ever targets an out-of-range page. -/
theorem nav_clamp_counterexample_c10 :
    (1 : ℤ) ≤ 1 ∧ prevTarget 1 1 < 1 ∧ 1 < nextTarget 1 1 := by
  unfold prevTarget nextTarget getVal clamp
  refine ⟨le_refl 1, ?_, ?_⟩ <;> omega

/-- Claim C10 (amended): for a document with at least one page, the
navigation clamp maps every integer into `[1, numPages]` (below-range
to 1, above-range to `numPages`, in-range unchanged), and the go
action's scroll target is therefore always inside the document; but
the prev/next handlers scroll to the *unclamped* `n - 1` / `n + 1` of
the clamped input, so their targets range over `[0, numPages - 1]` and
`[2, numPages + 1]` and fall outside the document at the boundaries —
only the page-number input field is re-clamped. -/
theorem nav_clamp_c10 (numPages n : ℤ) (h : 1 ≤ numPages) :
    1 ≤ clamp numPages n ∧ clamp numPages n ≤ numPages ∧
    (n < 1 → clamp numPages n = 1) ∧
    (numPages < n → clamp numPages n = numPages) ∧
    (1 ≤ n → n ≤ numPages → clamp numPages n = n) ∧
    (1 ≤ goTarget numPages n ∧ goTarget numPages n ≤ numPages) ∧
    prevTarget numPages n = clamp numPages n - 1 ∧
    nextTarget numPages n = clamp numPages n + 1 ∧
    (0 ≤ prevTarget numPages n ∧ prevTarget numPages n ≤ numPages - 1) ∧
    (2 ≤ nextTarget numPages n ∧ nextTarget numPages n ≤ numPages + 1) := by
  unfold goTarget prevTarget nextTarget getVal clamp
  refine ⟨?_, ?_, ?_, ?_, ?_, ⟨?_, ?_⟩, ?_, ?_, ⟨?_, ?_⟩, ⟨?_, ?_⟩⟩ <;> omega

/-- Witness for the amended C10 at `numPages = 5`, `n = 0`. -/
theorem nav_clamp_c10_witness :
    1 ≤ clamp 5 0 ∧ clamp 5 0 ≤ 5 ∧ ((0 : ℤ) < 1 → clamp 5 0 = 1) ∧
    ((5 : ℤ) < 0 → clamp 5 0 = 5) ∧
    ((1 : ℤ) ≤ 0 → (0 : ℤ) ≤ 5 → clamp 5 0 = 0) ∧
    (1 ≤ goTarget 5 0 ∧ goTarget 5 0 ≤ 5) ∧
    prevTarget 5 0 = clamp 5 0 - 1 ∧
    nextTarget 5 0 = clamp 5 0 + 1 ∧
    (0 ≤ prevTarget 5 0 ∧ prevTarget 5 0 ≤ 5 - 1) ∧
    (2 ≤ nextTarget 5 0 ∧ nextTarget 5 0 ≤ 5 + 1) :=
  nav_clamp_c10 5 0 (by decide)

end PdfFuzzySearch
